import Mathlib

/-!
Verification of the bounded-chunk text-to-speech pipeline of the
sustainability-tss-podcast repository.

JavaScript strings are modelled as `List Char` (`JStr`); each Lean `Char`
is one source character.  UTF-8 byte counts use `Char.utf8Size`.
`Math.floor(n * 0.8)` on a natural length is modelled by the exact rational
floor `n * 4 / 5` (the two agree at every length reached in this
development, in particular at 1000, where the double rounding of `0.8`
does not change the floor).
-/

/-- A JavaScript string, modelled as its list of characters. -/
abbrev JStr := List Char

/-- UTF-8 byte length of a string (`new TextEncoder().encode(text).length`). -/
def utf8ByteLength (s : JStr) : Nat :=
  (s.map Char.utf8Size).sum

/-- The whitespace characters recognised by `String.prototype.trim` and the
regex class `\s` (restricted to the ASCII whitespace used by this corpus). -/
def isJsWhitespace (c : Char) : Bool :=
  c = ' ' || c = '\t' || c = '\n' || c = '\r' || c = '\x0b' || c = '\x0c'

/-- `String.prototype.trim`: strip whitespace from both ends. -/
def jsTrim (s : JStr) : JStr :=
  ((s.dropWhile isJsWhitespace).reverse.dropWhile isJsWhitespace).reverse

/-- Sentence-ending punctuation, the class `[.!?]`. -/
def isSentenceTerm (c : Char) : Bool :=
  c = '.' || c = '!' || c = '?'

/-- The regex test `/[.!?]$/.test(part)`: does the string end with a
sentence-ending mark? -/
def endsWithSentenceMark (s : JStr) : Bool :=
  match s.getLast? with
  | some c => isSentenceTerm c
  | none => false

/-- Largest index `i ≤ k` such that `s[i] = c`, or `none`
(`String.prototype.lastIndexOf(c, k)` restricted to single characters;
a `-1` result is modelled as `none`). -/
def lastIdxAux (c : Char) : JStr → Nat → Option Nat
  | [], _ => none
  | a :: _, 0 => if a = c then some 0 else none
  | a :: rest, k + 1 =>
    match lastIdxAux c rest k with
    | some j => some (j + 1)
    | none => if a = c then some 0 else none

/-- `let splitIndex = remaining.lastIndexOf(' ', safeChunkSize);
if (splitIndex === -1) splitIndex = safeChunkSize;` -/
def splitIdx (safe : Nat) (r : JStr) : Nat :=
  (lastIdxAux ' ' r safe).getD safe

/-- Length of the match of `/\n\s*\n/` anchored at the start of `s`, when the
regex matches there.  The greedy `\s*` with backtracking consumes the longest
whitespace run after the first newline that still leaves a final newline, so
the match is `'\n'` followed by the whitespace run up to (and including) its
last newline. -/
def blankMatchLen (s : JStr) : Option Nat :=
  match s with
  | [] => none
  | c :: rest =>
    if c = '\n' then
      let run := rest.takeWhile isJsWhitespace
      match lastIdxAux '\n' run run.length with
      | some p => some (p + 2)
      | none => none
    else none

/-- Scan for the first (leftmost) match of `/\n\s*\n/`: returns the text
before the match and the text after it. -/
def findBlank : JStr → Option (JStr × JStr)
  | [] => none
  | c :: rest =>
    match blankMatchLen (c :: rest) with
    | some n => some ([], (c :: rest).drop n)
    | none =>
      match findBlank rest with
      | some (pre, post) => some (c :: pre, post)
      | none => none

theorem blankMatchLen_two_le {s : JStr} {n : Nat} (h : blankMatchLen s = some n) :
    2 ≤ n := by
  unfold blankMatchLen at h
  cases s with
  | nil => cases h
  | cons c rest =>
    simp only at h
    split at h
    · split at h
      · simp only [Option.some.injEq] at h
        omega
      · cases h
    · cases h

theorem findBlank_post_lt {s : JStr} {pre post : JStr}
    (h : findBlank s = some (pre, post)) : post.length < s.length := by
  induction s generalizing pre post with
  | nil => cases h
  | cons c rest ih =>
    unfold findBlank at h
    cases hb : blankMatchLen (c :: rest) with
    | some n =>
      rw [hb] at h
      cases h
      have h2 := blankMatchLen_two_le hb
      have : ((c :: rest).drop n).length = (c :: rest).length - n := by
        simp [List.length_drop]
      simp only [List.length_cons] at this ⊢
      omega
    | none =>
      rw [hb] at h
      cases hf : findBlank rest with
      | some pp =>
        rw [hf] at h
        cases pp with
        | mk p q =>
          simp only [Option.some.injEq, Prod.mk.injEq] at h
          obtain ⟨h1, h2⟩ := h
          subst h2
          have := ih hf
          simp only [List.length_cons]
          omega
      | none => rw [hf] at h; cases h

/-- `text.split(/\n\s*\n/)`: split on blank-line boundaries. -/
def splitParas (s : JStr) : List JStr :=
  match hf : findBlank s with
  | none => [s]
  | some (pre, post) => pre :: splitParas post
termination_by s.length
decreasing_by exact findBlank_post_lt hf


theorem dropWhile_len_le {α : Type} (p : α → Bool) (l : List α) :
    (l.dropWhile p).length ≤ l.length :=
  (List.dropWhile_sublist p).length_le

/-- The maximal run of non-terminator characters at the front of `s`
(the greedy `[^.!?]+` of the sentence regex, possibly empty). -/
def nonTermPre (s : JStr) : JStr :=
  s.takeWhile (fun x => !isSentenceTerm x)

/-- What remains of `s` after the leading non-terminator run. -/
def afterNonTerm (s : JStr) : JStr :=
  s.drop (nonTermPre s).length

/-- The maximal run of terminators right after the leading non-terminator run
(the greedy `[.!?]+` of the sentence regex). -/
def termRun (s : JStr) : JStr :=
  (afterNonTerm s).takeWhile isSentenceTerm

theorem nonTermPre_pos {c : Char} {rest : JStr} (h : isSentenceTerm c = false) :
    1 ≤ (nonTermPre (c :: rest)).length := by
  simp [nonTermPre, List.takeWhile_cons, h]

theorem afterNonTerm_length (s : JStr) :
    (afterNonTerm s).length = s.length - (nonTermPre s).length := by
  simp [afterNonTerm, List.length_drop]

/-- `paragraph.match(/[^.!?]+[.!?]+|[^.!?]+$/g)` — the list of sentence
matches, scanning left to right; positions where neither alternative can
match (a leading terminator) advance the scan by one character. -/
def sentencesFrom (s : JStr) : List JStr :=
  match s with
  | [] => []
  | c :: rest =>
    if isSentenceTerm c then sentencesFrom rest
    else if (afterNonTerm (c :: rest)).length = 0 then [nonTermPre (c :: rest)]
    else
      (nonTermPre (c :: rest) ++ termRun (c :: rest)) ::
        sentencesFrom ((afterNonTerm (c :: rest)).drop (termRun (c :: rest)).length)
termination_by s.length
decreasing_by
  · simp only [List.length_cons]; omega
  · rename_i hterm _
    rw [Bool.not_eq_true] at hterm
    have h1 : 1 ≤ (nonTermPre (c :: rest)).length := nonTermPre_pos hterm
    have h2 := afterNonTerm_length (c :: rest)
    have h3 : ((afterNonTerm (c :: rest)).drop (termRun (c :: rest)).length).length
        ≤ (afterNonTerm (c :: rest)).length := by
      simp [List.length_drop]
    simp only [List.length_cons] at h2 ⊢
    omega

/-- `paragraph.match(...) || [paragraph]` — `match` yields `null` when there
is no match at all, in which case the whole paragraph is used. -/
def jsMatchSentences (p : JStr) : List JStr :=
  let l := sentencesFrom p
  if l.isEmpty then [p] else l

theorem jsTrim_length_le (s : JStr) : (jsTrim s).length ≤ s.length := by
  unfold jsTrim
  calc ((s.dropWhile isJsWhitespace).reverse.dropWhile isJsWhitespace).reverse.length
      = ((s.dropWhile isJsWhitespace).reverse.dropWhile isJsWhitespace).length := by
        simp
    _ ≤ (s.dropWhile isJsWhitespace).reverse.length := dropWhile_len_le _ _
    _ = (s.dropWhile isJsWhitespace).length := by simp
    _ ≤ s.length := dropWhile_len_le _ _

theorem jsTrim_length_lt_of_head_ws {c : Char} {rest : JStr}
    (hws : isJsWhitespace c = true) :
    (jsTrim (c :: rest)).length < (c :: rest).length := by
  unfold jsTrim
  have hdrop : (c :: rest).dropWhile isJsWhitespace = rest.dropWhile isJsWhitespace := by
    simp [List.dropWhile_cons, hws]
  rw [hdrop]
  have h1 : ((rest.dropWhile isJsWhitespace).reverse.dropWhile isJsWhitespace).reverse.length
      ≤ (rest.dropWhile isJsWhitespace).length := by
    calc ((rest.dropWhile isJsWhitespace).reverse.dropWhile isJsWhitespace).reverse.length
        = ((rest.dropWhile isJsWhitespace).reverse.dropWhile isJsWhitespace).length := by simp
      _ ≤ (rest.dropWhile isJsWhitespace).reverse.length := dropWhile_len_le _ _
      _ = (rest.dropWhile isJsWhitespace).length := by simp
  have h2 : (rest.dropWhile isJsWhitespace).length ≤ rest.length :=
    dropWhile_len_le _ _
  simp only [List.length_cons]
  omega

theorem lastIdxAux_le {c : Char} {s : JStr} {k i : Nat}
    (h : lastIdxAux c s k = some i) : i ≤ k := by
  induction s generalizing k i with
  | nil => simp [lastIdxAux] at h
  | cons a rest ih =>
    cases k with
    | zero =>
      by_cases hac : a = c
      · simp [lastIdxAux, hac] at h
        omega
      · simp [lastIdxAux, hac] at h
    | succ k =>
      cases hr : lastIdxAux c rest k with
      | some j =>
        simp only [lastIdxAux, hr] at h
        simp only [Option.some.injEq] at h
        have := ih hr
        omega
      | none =>
        by_cases hac : a = c
        · simp only [lastIdxAux, hr, hac, if_pos] at h
          simp only [Option.some.injEq] at h
          omega
        · simp [lastIdxAux, hr, hac] at h

theorem lastIdxAux_getElem {c : Char} {s : JStr} {k i : Nat}
    (h : lastIdxAux c s k = some i) : s.getD i ' ' = c ∧ i < s.length := by
  induction s generalizing k i with
  | nil => simp [lastIdxAux] at h
  | cons a rest ih =>
    cases k with
    | zero =>
      by_cases hac : a = c
      · simp [lastIdxAux, hac] at h
        subst h
        simp [hac]
      · simp [lastIdxAux, hac] at h
    | succ k =>
      cases hr : lastIdxAux c rest k with
      | some j =>
        simp only [lastIdxAux, hr, Option.some.injEq] at h
        obtain ⟨hg, hl⟩ := ih hr
        subst h
        constructor
        · simpa using hg
        · simp only [List.length_cons]; omega
      | none =>
        by_cases hac : a = c
        · simp only [lastIdxAux, hr, hac, if_pos, Option.some.injEq] at h
          subst h
          simp [hac]
        · simp [lastIdxAux, hr, hac] at h

/-- One iteration of the forced-slice loop shrinks the remaining fragment:
`remaining = remaining.substring(splitIndex).trim()` is strictly shorter
whenever `remaining.length > safeChunkSize` and `safeChunkSize ≥ 1`. -/
theorem forcedStep_lt {safe : Nat} (hs : 0 < safe) {r : JStr}
    (h : safe < r.length) :
    (jsTrim (r.drop (splitIdx safe r))).length < r.length := by
  unfold splitIdx
  cases hl : lastIdxAux ' ' r safe with
  | some i =>
    simp only [Option.getD_some]
    obtain ⟨hg, hlt⟩ := lastIdxAux_getElem hl
    cases i with
    | zero =>
      cases r with
      | nil => simp at hlt
      | cons a rest =>
        simp only [List.getD_cons_zero] at hg
        subst hg
        have hlt2 : (jsTrim (' ' :: rest)).length < (' ' :: rest).length :=
          jsTrim_length_lt_of_head_ws (by simp [isJsWhitespace])
        simpa using hlt2
    | succ i =>
      have h1 : (r.drop (i + 1)).length < r.length := by
        simp only [List.length_drop]; omega
      exact lt_of_le_of_lt (jsTrim_length_le _) h1
  | none =>
    simp only [Option.getD_none]
    have h1 : (r.drop safe).length < r.length := by
      simp only [List.length_drop]; omega
    exact lt_of_le_of_lt (jsTrim_length_le _) h1

/-- One pushed chunk of the forced-slice loop:
`part = remaining.substring(0, splitIndex).trim()`, with `'.'` appended when
the slice does not already end in a sentence mark. -/
def forcedPart (safe : Nat) (remaining : JStr) : JStr :=
  if endsWithSentenceMark (jsTrim (remaining.take (splitIdx safe remaining)))
    then jsTrim (remaining.take (splitIdx safe remaining))
    else jsTrim (remaining.take (splitIdx safe remaining)) ++ ['.']

/-- The forced-slice loop (`while (remaining.length > 0) { ... }`) that hard
splits a sentence longer than the safe chunk size.  Returns the list of
chunks pushed by the loop and the value of `currentChunk` at exit
(`currentChunk` is the empty string on entry, having just been flushed). -/
def forcedSlices (safe : Nat) (hs : 0 < safe) (remaining : JStr) :
    List JStr × JStr :=
  if remaining.length = 0 then ([], [])
  else if remaining.length ≤ safe then ([], remaining)
  else
    (forcedPart safe remaining ::
        (forcedSlices safe hs (jsTrim (remaining.drop (splitIdx safe remaining)))).1,
      (forcedSlices safe hs (jsTrim (remaining.drop (splitIdx safe remaining)))).2)
termination_by remaining.length
decreasing_by all_goals exact forcedStep_lt hs (by omega)

/-- The mutable state of `splitTextIntoChunks`: the `chunks` array and the
`currentChunk` accumulator. -/
structure ChunkSt where
  chunks : List JStr
  cur : JStr
deriving DecidableEq

/-- The body of the sentence loop (`for (const sentence of sentences)`). -/
def processSentence (safe : Nat) (hs : 0 < safe) (st : ChunkSt) (sentence : JStr) :
    ChunkSt :=
  if (st.cur ++ sentence).length < safe then
    { st with cur := st.cur ++ (if st.cur.isEmpty then [] else [' ']) ++ sentence }
  else if sentence.length ≤ safe then
    { (if st.cur.isEmpty then st
        else { chunks := st.chunks ++ [st.cur], cur := [] } : ChunkSt) with
      cur := sentence }
  else
    { chunks := (if st.cur.isEmpty then st
        else { chunks := st.chunks ++ [st.cur], cur := [] } : ChunkSt).chunks
        ++ (forcedSlices safe hs sentence).1,
      cur := (forcedSlices safe hs sentence).2 }

/-- The body of the paragraph loop (`for (const paragraph of paragraphs)`). -/
def processParagraph (safe : Nat) (hs : 0 < safe) (st : ChunkSt) (para : JStr) :
    ChunkSt :=
  if (jsTrim para).isEmpty then st
  else if (st.cur ++ para).length < safe then
    { st with cur := st.cur ++ (if st.cur.isEmpty then [] else ['\n', '\n']) ++ para }
  else if para.length ≤ safe then
    { (if st.cur.isEmpty then st
        else { chunks := st.chunks ++ [st.cur], cur := [] } : ChunkSt) with
      cur := para }
  else
    (jsMatchSentences para).foldl (processSentence safe hs)
      (if st.cur.isEmpty then st
        else { chunks := st.chunks ++ [st.cur], cur := [] })

/-- `splitTextIntoChunks(text, chunkSize)` from src/text-to-speech.js.
`safeChunkSize = Math.floor(chunkSize * 0.8)` is modelled as
`chunkSize * 4 / 5`; the hypothesis `hs` (satisfied at the only call site,
`chunkSize = 1000`) rules out the degenerate zero safe size, at which the
source loop itself would not terminate. -/
def splitTextIntoChunks (text : JStr) (chunkSize : Nat)
    (hs : 0 < chunkSize * 4 / 5) : List JStr :=
  if text.length ≤ chunkSize then [text]
  else if ((splitParas text).foldl (processParagraph (chunkSize * 4 / 5) hs)
      ⟨[], []⟩).cur.isEmpty
    then ((splitParas text).foldl (processParagraph (chunkSize * 4 / 5) hs)
      ⟨[], []⟩).chunks
    else ((splitParas text).foldl (processParagraph (chunkSize * 4 / 5) hs)
        ⟨[], []⟩).chunks
      ++ [((splitParas text).foldl (processParagraph (chunkSize * 4 / 5) hs)
        ⟨[], []⟩).cur]

/-- The Chunker exactly as invoked by `textToAudio`:
`splitTextIntoChunks(text, 1000)`. -/
def chunkText (text : JStr) : List JStr :=
  splitTextIntoChunks text 1000 (by norm_num)

theorem splitIdx_le (safe : Nat) (r : JStr) : splitIdx safe r ≤ safe := by
  unfold splitIdx
  cases hl : lastIdxAux ' ' r safe with
  | some i => simpa using lastIdxAux_le hl
  | none => simp

theorem endsWithSentenceMark_concat_dot (l : JStr) :
    endsWithSentenceMark (l ++ ['.']) = true := by
  simp [endsWithSentenceMark, List.getLast?_concat, isSentenceTerm]

theorem endsWithSentenceMark_nil : endsWithSentenceMark [] = false := by
  simp [endsWithSentenceMark]

/-- Every chunk pushed by the forced-slice loop is non-empty, has at most
`safe + 1` characters (a `'.'` may have been appended to a slice of at most
`safe` characters), and ends with a sentence mark; the `currentChunk` left
behind has at most `safe` characters. -/
theorem forcedSlices_spec (safe : Nat) (hs : 0 < safe) :
    ∀ (n : Nat) (r : JStr), r.length ≤ n →
      (∀ p ∈ (forcedSlices safe hs r).1,
        p ≠ [] ∧ p.length ≤ safe + 1 ∧ endsWithSentenceMark p = true)
      ∧ (forcedSlices safe hs r).2.length ≤ safe := by
  intro n
  induction n with
  | zero =>
    intro r hr
    have h0 : r.length = 0 := by omega
    rw [forcedSlices]
    simp [h0]
  | succ n ih =>
    intro r hr
    rw [forcedSlices]
    by_cases h0 : r.length = 0
    · simp [h0]
    · by_cases h1 : r.length ≤ safe
      · simp [h0, h1]
      · rw [if_neg h0, if_neg h1]
        have hpart0 : (jsTrim (r.take (splitIdx safe r))).length ≤ safe := by
          calc (jsTrim (r.take (splitIdx safe r))).length
              ≤ (r.take (splitIdx safe r)).length := jsTrim_length_le _
            _ ≤ splitIdx safe r := by simp [List.length_take]
            _ ≤ safe := splitIdx_le safe r
        have hrest : (jsTrim (r.drop (splitIdx safe r))).length ≤ n := by
          have hstep : (jsTrim (r.drop (splitIdx safe r))).length < r.length :=
            forcedStep_lt hs (by omega)
          omega
        obtain ⟨ih1, ih2⟩ := ih (jsTrim (r.drop (splitIdx safe r))) hrest
        refine ⟨?_, ih2⟩
        intro p hp
        simp only [List.mem_cons] at hp
        cases hp with
        | inl hp =>
          subst hp
          unfold forcedPart
          by_cases hew : endsWithSentenceMark (jsTrim (r.take (splitIdx safe r))) = true
          · refine ⟨?_, ?_, ?_⟩
            · intro hnil
              rw [if_pos hew] at hnil
              rw [hnil] at hew
              simp [endsWithSentenceMark_nil] at hew
            · rw [if_pos hew]; omega
            · rw [if_pos hew]; exact hew
          · refine ⟨?_, ?_, ?_⟩
            · rw [if_neg hew]; simp
            · rw [if_neg hew]; simp only [List.length_append, List.length_cons,
                List.length_nil]; omega
            · rw [if_neg hew]; exact endsWithSentenceMark_concat_dot _
        | inr hp => exact ih1 p hp

theorem utf8ByteLength_le_four_mul (s : JStr) :
    utf8ByteLength s ≤ 4 * s.length := by
  induction s with
  | nil => simp [utf8ByteLength]
  | cons c rest ih =>
    have := Char.utf8Size_le_four c
    simp only [utf8ByteLength, List.map_cons, List.sum_cons, List.length_cons] at ih ⊢
    omega

/-- Invariant of the chunking state: every pushed chunk is non-empty and has
at most `safe + 1` characters, and the accumulator has at most `safe + 1`
characters. -/
def ChunkInv (safe : Nat) (st : ChunkSt) : Prop :=
  (∀ c ∈ st.chunks, c ≠ [] ∧ c.length ≤ safe + 1) ∧ st.cur.length ≤ safe + 1

theorem processSentence_inv {safe : Nat} {hs : 0 < safe} {st : ChunkSt}
    {s : JStr} (hinv : ChunkInv safe st) :
    ChunkInv safe (processSentence safe hs st s) := by
  obtain ⟨hchunks, hcur⟩ := hinv
  unfold processSentence
  by_cases hfit : (st.cur ++ s).length < safe
  · rw [if_pos hfit]
    refine ⟨hchunks, ?_⟩
    simp only [List.length_append] at hfit ⊢
    by_cases hemp : st.cur.isEmpty
    · simp only [hemp, if_pos]
      simp only [List.length_nil]
      omega
    · simp only [hemp, if_neg, Bool.false_eq_true, not_false_eq_true,
        List.length_cons, List.length_nil]
      omega
  · rw [if_neg hfit]
    have hst1 : ∀ c ∈ (if st.cur.isEmpty then st
        else { chunks := st.chunks ++ [st.cur], cur := [] } : ChunkSt).chunks,
        c ≠ [] ∧ c.length ≤ safe + 1 := by
      by_cases hemp : st.cur.isEmpty
      · simpa [hemp] using hchunks
      · simp only [hemp, Bool.false_eq_true, if_neg, not_false_eq_true,
          List.mem_append, List.mem_singleton]
        intro c hc
        cases hc with
        | inl hc => exact hchunks c hc
        | inr hc =>
          subst hc
          refine ⟨?_, hcur⟩
          intro hnil
          rw [hnil] at hemp
          simp at hemp
    by_cases hsm : s.length ≤ safe
    · rw [if_pos hsm]
      refine ⟨hst1, ?_⟩
      show s.length ≤ safe + 1
      omega
    · rw [if_neg hsm]
      obtain ⟨hparts, hout2⟩ := forcedSlices_spec safe hs s.length s le_rfl
      refine ⟨?_, ?_⟩
      swap
      · show (forcedSlices safe hs s).2.length ≤ safe + 1
        omega
      intro c hc
      simp only [List.mem_append] at hc
      cases hc with
      | inl hc => exact hst1 c hc
      | inr hc =>
        obtain ⟨h1, h2, _⟩ := hparts c hc
        exact ⟨h1, h2⟩

theorem processParagraph_inv {safe : Nat} {hs : 0 < safe} {st : ChunkSt}
    {p : JStr} (hinv : ChunkInv safe st) :
    ChunkInv safe (processParagraph safe hs st p) := by
  obtain ⟨hchunks, hcur⟩ := hinv
  unfold processParagraph
  by_cases hskip : (jsTrim p).isEmpty
  · rw [if_pos hskip]; exact ⟨hchunks, hcur⟩
  · rw [if_neg hskip]
    by_cases hfit : (st.cur ++ p).length < safe
    · rw [if_pos hfit]
      refine ⟨hchunks, ?_⟩
      simp only [List.length_append] at hfit ⊢
      by_cases hemp : st.cur.isEmpty
      · simp only [hemp, if_pos, List.length_nil]
        omega
      · simp only [hemp, Bool.false_eq_true, if_neg, not_false_eq_true,
          List.length_cons, List.length_nil]
        omega
    · rw [if_neg hfit]
      have hst1inv : ChunkInv safe (if st.cur.isEmpty then st
          else { chunks := st.chunks ++ [st.cur], cur := [] } : ChunkSt) := by
        by_cases hemp : st.cur.isEmpty
        · simpa [hemp] using ⟨hchunks, hcur⟩
        · simp only [hemp, Bool.false_eq_true, if_neg, not_false_eq_true]
          refine ⟨?_, by simp⟩
          simp only [List.mem_append, List.mem_singleton]
          intro c hc
          cases hc with
          | inl hc => exact hchunks c hc
          | inr hc =>
            subst hc
            refine ⟨?_, hcur⟩
            intro hnil
            rw [hnil] at hemp
            simp at hemp
      by_cases hpm : p.length ≤ safe
      · rw [if_pos hpm]
        refine ⟨hst1inv.1, ?_⟩
        show p.length ≤ safe + 1
        omega
      · rw [if_neg hpm]
        have : ∀ (l : List JStr) (st0 : ChunkSt), ChunkInv safe st0 →
            ChunkInv safe (l.foldl (processSentence safe hs) st0) := by
          intro l
          induction l with
          | nil => intro st0 h; simpa using h
          | cons x xs ih =>
            intro st0 h
            simpa using ih _ (processSentence_inv h)
        exact this _ _ hst1inv

/-- Some output has been produced: either a chunk was pushed or the
accumulator is non-empty. -/
def ChunkProgress (st : ChunkSt) : Prop :=
  st.chunks ≠ [] ∨ st.cur ≠ []

theorem forcedSlices_fst_ne_nil {safe : Nat} (hs : 0 < safe) {r : JStr}
    (h : safe < r.length) : (forcedSlices safe hs r).1 ≠ [] := by
  rw [forcedSlices]
  have h0 : ¬ r.length = 0 := by omega
  have h1 : ¬ r.length ≤ safe := by omega
  simp [h0, h1]

theorem processSentence_chunks_extend (safe : Nat) (hs : 0 < safe)
    (st : ChunkSt) (s : JStr) :
    ∃ t, (processSentence safe hs st s).chunks = st.chunks ++ t := by
  unfold processSentence
  by_cases hfit : (st.cur ++ s).length < safe
  · rw [if_pos hfit]
    exact ⟨[], by simp⟩
  · rw [if_neg hfit]
    by_cases hemp : st.cur.isEmpty
    · by_cases hsm : s.length ≤ safe
      · rw [if_pos hsm]; exact ⟨[], by simp [hemp]⟩
      · rw [if_neg hsm]
        exact ⟨(forcedSlices safe hs s).1, by simp [hemp]⟩
    · by_cases hsm : s.length ≤ safe
      · rw [if_pos hsm]; exact ⟨[st.cur], by simp [hemp]⟩
      · rw [if_neg hsm]
        exact ⟨[st.cur] ++ (forcedSlices safe hs s).1, by simp [hemp]⟩

theorem processSentence_progress_establish {safe : Nat} (hs : 0 < safe)
    (st : ChunkSt) {s : JStr} (hsne : s ≠ []) :
    ChunkProgress (processSentence safe hs st s) := by
  unfold processSentence
  by_cases hfit : (st.cur ++ s).length < safe
  · rw [if_pos hfit]
    right
    show st.cur ++ (if st.cur.isEmpty then [] else [' ']) ++ s ≠ []
    simp [hsne]
  · rw [if_neg hfit]
    by_cases hsm : s.length ≤ safe
    · rw [if_pos hsm]
      right
      exact hsne
    · rw [if_neg hsm]
      left
      show (if st.cur.isEmpty then st
        else { chunks := st.chunks ++ [st.cur], cur := [] } : ChunkSt).chunks
          ++ (forcedSlices safe hs s).1 ≠ []
      have hne2 : (forcedSlices safe hs s).1 ≠ [] :=
        forcedSlices_fst_ne_nil hs (by omega)
      simp [hne2]

theorem processSentence_progress_preserve {safe : Nat} (hs : 0 < safe)
    {st : ChunkSt} (s : JStr) (hp : ChunkProgress st) :
    ChunkProgress (processSentence safe hs st s) := by
  cases hp with
  | inl hch =>
    left
    obtain ⟨t, ht⟩ := processSentence_chunks_extend safe hs st s
    rw [ht]
    simp [hch]
  | inr hcur =>
    unfold processSentence
    by_cases hfit : (st.cur ++ s).length < safe
    · rw [if_pos hfit]
      right
      show st.cur ++ (if st.cur.isEmpty then [] else [' ']) ++ s ≠ []
      simp [hcur]
    · rw [if_neg hfit]
      have hemp : ¬ st.cur.isEmpty := by simpa using hcur
      by_cases hsm : s.length ≤ safe
      · rw [if_pos hsm]
        left
        show (if st.cur.isEmpty then st
          else { chunks := st.chunks ++ [st.cur], cur := [] } : ChunkSt).chunks ≠ []
        simp [hemp]
      · rw [if_neg hsm]
        left
        show (if st.cur.isEmpty then st
          else { chunks := st.chunks ++ [st.cur], cur := [] } : ChunkSt).chunks
            ++ (forcedSlices safe hs s).1 ≠ []
        simp [hemp]

theorem sentencesFrom_mem_ne_nil {p : JStr} :
    ∀ s ∈ sentencesFrom p, s ≠ [] := by
  have main : ∀ (n : Nat) (p : JStr), p.length ≤ n → ∀ s ∈ sentencesFrom p, s ≠ [] := by
    intro n
    induction n with
    | zero =>
      intro p hp
      have : p = [] := by
        cases p with
        | nil => rfl
        | cons c r => simp at hp
      subst this
      simp [sentencesFrom]
    | succ n ih =>
      intro p hp s hs
      cases p with
      | nil => simp [sentencesFrom] at hs
      | cons c rest =>
        rw [sentencesFrom] at hs
        by_cases hterm : isSentenceTerm c
        · rw [if_pos hterm] at hs
          exact ih rest (by simp at hp; omega) s hs
        · rw [if_neg hterm] at hs
          have hnt : 1 ≤ (nonTermPre (c :: rest)).length :=
            nonTermPre_pos (by simpa using hterm)
          by_cases hafter : (afterNonTerm (c :: rest)).length = 0
          · rw [if_pos hafter] at hs
            simp only [List.mem_singleton] at hs
            subst hs
            intro hnil
            rw [hnil] at hnt
            simp at hnt
          · rw [if_neg hafter] at hs
            simp only [List.mem_cons] at hs
            cases hs with
            | inl hs =>
              subst hs
              intro hnil
              have := List.append_eq_nil.mp hnil
              rw [this.1] at hnt
              simp at hnt
            | inr hs =>
              have hlen : ((afterNonTerm (c :: rest)).drop
                  (termRun (c :: rest)).length).length ≤ n := by
                have h2 := afterNonTerm_length (c :: rest)
                have h3 : ((afterNonTerm (c :: rest)).drop
                    (termRun (c :: rest)).length).length
                    ≤ (afterNonTerm (c :: rest)).length := by
                  simp [List.length_drop]
                simp only [List.length_cons] at h2 hp
                omega
              exact ih _ hlen s hs
  exact main p.length p le_rfl

theorem jsMatchSentences_ne_nil (p : JStr) : jsMatchSentences p ≠ [] := by
  unfold jsMatchSentences
  by_cases h : (sentencesFrom p).isEmpty
  · simp [h]
  · simpa [h] using (by simpa using h)

theorem jsMatchSentences_mem_ne_nil {p : JStr} (hp : p ≠ []) :
    ∀ s ∈ jsMatchSentences p, s ≠ [] := by
  unfold jsMatchSentences
  by_cases h : (sentencesFrom p).isEmpty
  · simp only [h, if_pos, List.mem_singleton]
    intro s hs
    subst hs
    exact hp
  · simp only [h, Bool.false_eq_true, if_neg, not_false_eq_true]
    exact sentencesFrom_mem_ne_nil

theorem foldl_processSentence_establish {safe : Nat} (hs : 0 < safe) :
    ∀ (l : List JStr) (st : ChunkSt), l ≠ [] → (∀ s ∈ l, s ≠ []) →
      ChunkProgress (l.foldl (processSentence safe hs) st) := by
  intro l
  induction l with
  | nil => intro st h _; exact absurd rfl h
  | cons x xs ih =>
    intro st _ hall
    cases xs with
    | nil =>
      simpa using processSentence_progress_establish hs st (hall x (by simp))
    | cons y ys =>
      simp only [List.foldl_cons]
      exact ih _ (by simp) (fun s hsx => hall s (by simp [hsx]))

theorem jsTrim_ne_nil_iff_not_all_ws {p : JStr} {c : Char}
    (hc : c ∈ p) (hws : isJsWhitespace c = false) : jsTrim p ≠ [] := by
  have step : ∀ (l : JStr), c ∈ l → c ∈ l.dropWhile isJsWhitespace := by
    intro l
    induction l with
    | nil => intro h; cases h
    | cons a rest ih =>
      intro h
      by_cases ha : isJsWhitespace a
      · rw [List.dropWhile_cons_of_pos ha]
        apply ih
        cases (List.mem_cons.mp h) with
        | inl hh =>
          subst hh
          rw [hws] at ha
          cases ha
        | inr hh => exact hh
      · rw [List.dropWhile_cons_of_neg ha]
        exact h
  have h1 : c ∈ jsTrim p := by
    unfold jsTrim
    rw [List.mem_reverse]
    apply step
    rw [List.mem_reverse]
    exact step p hc
  intro hnil
  rw [hnil] at h1
  cases h1

theorem processParagraph_progress_establish {safe : Nat} (hs : 0 < safe)
    (st : ChunkSt) {p : JStr} (htr : jsTrim p ≠ []) :
    ChunkProgress (processParagraph safe hs st p) := by
  have hpne : p ≠ [] := by
    intro hnil
    subst hnil
    exact htr (by simp [jsTrim])
  unfold processParagraph
  rw [if_neg (by simpa using htr)]
  by_cases hfit : (st.cur ++ p).length < safe
  · rw [if_pos hfit]
    right
    show st.cur ++ (if st.cur.isEmpty then [] else ['\n', '\n']) ++ p ≠ []
    simp [hpne]
  · rw [if_neg hfit]
    by_cases hpm : p.length ≤ safe
    · rw [if_pos hpm]
      right
      exact hpne
    · rw [if_neg hpm]
      exact foldl_processSentence_establish hs _ _
        (jsMatchSentences_ne_nil p) (jsMatchSentences_mem_ne_nil hpne)

theorem foldl_processSentence_chunks_extend {safe : Nat} (hs : 0 < safe) :
    ∀ (l : List JStr) (st : ChunkSt),
      ∃ t, (l.foldl (processSentence safe hs) st).chunks = st.chunks ++ t := by
  intro l
  induction l with
  | nil => intro st; exact ⟨[], by simp⟩
  | cons x xs ih =>
    intro st
    obtain ⟨t1, ht1⟩ := processSentence_chunks_extend safe hs st x
    obtain ⟨t2, ht2⟩ := ih (processSentence safe hs st x)
    exact ⟨t1 ++ t2, by simp [ht2, ht1]⟩

theorem processParagraph_progress_preserve {safe : Nat} (hs : 0 < safe)
    {st : ChunkSt} (p : JStr) (hp : ChunkProgress st) :
    ChunkProgress (processParagraph safe hs st p) := by
  unfold processParagraph
  by_cases hskip : (jsTrim p).isEmpty
  · rw [if_pos hskip]; exact hp
  · rw [if_neg hskip]
    cases hp with
    | inr hcur =>
      by_cases hfit : (st.cur ++ p).length < safe
      · rw [if_pos hfit]
        right
        show st.cur ++ (if st.cur.isEmpty then [] else ['\n', '\n']) ++ p ≠ []
        simp [hcur]
      · rw [if_neg hfit]
        have hemp : ¬ st.cur.isEmpty := by simpa using hcur
        have hst1 : (if st.cur.isEmpty then st
            else { chunks := st.chunks ++ [st.cur], cur := [] } : ChunkSt).chunks ≠ [] := by
          simp [hemp]
        by_cases hpm : p.length ≤ safe
        · rw [if_pos hpm]
          left
          exact hst1
        · rw [if_neg hpm]
          left
          obtain ⟨t, ht⟩ := foldl_processSentence_chunks_extend hs (jsMatchSentences p)
            (if st.cur.isEmpty then st
              else { chunks := st.chunks ++ [st.cur], cur := [] })
          rw [ht]
          simp [hemp]
    | inl hch =>
      by_cases hfit : (st.cur ++ p).length < safe
      · rw [if_pos hfit]
        left
        exact hch
      · rw [if_neg hfit]
        have hst1 : (if st.cur.isEmpty then st
            else { chunks := st.chunks ++ [st.cur], cur := [] } : ChunkSt).chunks ≠ [] := by
          by_cases hemp : st.cur.isEmpty
          · simpa [hemp] using hch
          · simp [hemp]
        by_cases hpm : p.length ≤ safe
        · rw [if_pos hpm]
          left
          exact hst1
        · rw [if_neg hpm]
          left
          obtain ⟨t, ht⟩ := foldl_processSentence_chunks_extend hs (jsMatchSentences p)
            (if st.cur.isEmpty then st
              else { chunks := st.chunks ++ [st.cur], cur := [] })
          rw [ht]
          simp only [ne_eq, List.append_eq_nil]
          intro hcon
          exact hst1 hcon.1

theorem take_takeWhile_eq {α : Type} (q : α → Bool) (l : List α) {k : Nat}
    (hk : k ≤ (l.takeWhile q).length) : l.take k = (l.takeWhile q).take k := by
  conv_lhs => rw [← List.takeWhile_append_dropWhile q l]
  rw [List.take_append_eq_append_take]
  have : k - (l.takeWhile q).length = 0 := by omega
  rw [this]
  simp

theorem mem_takeWhile_sat {α : Type} {q : α → Bool} {l : List α} {a : α}
    (h : a ∈ l.takeWhile q) : q a = true := by
  induction l with
  | nil => cases h
  | cons x xs ih =>
    by_cases hx : q x
    · rw [List.takeWhile_cons_of_pos hx] at h
      cases (List.mem_cons.mp h) with
      | inl hh => subst hh; exact hx
      | inr hh => exact ih hh
    · rw [List.takeWhile_cons_of_neg hx] at h
      cases h

theorem blankMatchLen_take_ws {s : JStr} {n : Nat}
    (h : blankMatchLen s = some n) : ∀ c ∈ s.take n, isJsWhitespace c = true := by
  unfold blankMatchLen at h
  cases s with
  | nil => cases h
  | cons a rest =>
    simp only at h
    split at h
    · rename_i hnl
      subst hnl
      split at h
      · rename_i p hp
        simp only [Option.some.injEq] at h
        subst h
        intro c hc
        have heq : p + 2 = (p + 1) + 1 := rfl
        rw [heq, List.take_succ_cons] at hc
        cases (List.mem_cons.mp hc) with
        | inl hh =>
          subst hh
          simp [isJsWhitespace]
        | inr hh =>
          obtain ⟨_, hlt⟩ := lastIdxAux_getElem hp
          have hple : p + 1 ≤ (rest.takeWhile isJsWhitespace).length := by omega
          rw [take_takeWhile_eq isJsWhitespace rest hple] at hh
          exact mem_takeWhile_sat (List.mem_of_mem_take hh)
      · cases h
    · cases h

theorem findBlank_decomp {s pre post : JStr}
    (h : findBlank s = some (pre, post)) :
    ∃ mid, s = pre ++ mid ++ post ∧ ∀ c ∈ mid, isJsWhitespace c = true := by
  induction s generalizing pre post with
  | nil => cases h
  | cons a rest ih =>
    unfold findBlank at h
    cases hb : blankMatchLen (a :: rest) with
    | some n =>
      rw [hb] at h
      simp only [Option.some.injEq, Prod.mk.injEq] at h
      obtain ⟨h1, h2⟩ := h
      subst h1
      subst h2
      refine ⟨(a :: rest).take n, ?_, blankMatchLen_take_ws hb⟩
      simp [List.take_append_drop]
    | none =>
      rw [hb] at h
      cases hf : findBlank rest with
      | some pp =>
        rw [hf] at h
        cases pp with
        | mk p q =>
          simp only [Option.some.injEq, Prod.mk.injEq] at h
          obtain ⟨h1, h2⟩ := h
          subst h1
          subst h2
          obtain ⟨mid, hmid, hws⟩ := ih hf
          exact ⟨mid, by simp [hmid], hws⟩
      | none => rw [hf] at h; cases h

theorem splitParas_cover {s : JStr} {c : Char} (hc : c ∈ s)
    (hws : isJsWhitespace c = false) : ∃ p ∈ splitParas s, c ∈ p := by
  have main : ∀ (n : Nat) (s : JStr), s.length ≤ n → c ∈ s →
      ∃ p ∈ splitParas s, c ∈ p := by
    intro n
    induction n with
    | zero =>
      intro s hlen hmem
      cases s with
      | nil => cases hmem
      | cons a rest => simp at hlen
    | succ n ih =>
      intro s hlen hmem
      rw [splitParas]
      cases hfb : findBlank s with
      | none => exact ⟨s, by simp, hmem⟩
      | some pp =>
        cases pp with
        | mk pre post =>
          obtain ⟨mid, hdecomp, hmidws⟩ := findBlank_decomp hfb
          subst hdecomp
          simp only [List.mem_append] at hmem
          cases hmem with
          | inl hmem =>
            cases hmem with
            | inl hpre => exact ⟨pre, by simp, hpre⟩
            | inr hmid =>
              rw [hmidws c hmid] at hws
              cases hws
          | inr hpost =>
            have hplen : post.length ≤ n := by
              have := findBlank_post_lt hfb
              omega
            obtain ⟨p, hp, hcp⟩ := ih post hplen hpost
            exact ⟨p, by simp [hp], hcp⟩
  exact main s.length s le_rfl hc

theorem foldl_processParagraph_inv {safe : Nat} (hs : 0 < safe) :
    ∀ (l : List JStr) (st : ChunkSt), ChunkInv safe st →
      ChunkInv safe (l.foldl (processParagraph safe hs) st) := by
  intro l
  induction l with
  | nil => intro st h; simpa using h
  | cons x xs ih =>
    intro st h
    simpa using ih _ (processParagraph_inv h)

theorem foldl_processParagraph_progress_preserve {safe : Nat} (hs : 0 < safe) :
    ∀ (l : List JStr) (st : ChunkSt), ChunkProgress st →
      ChunkProgress (l.foldl (processParagraph safe hs) st) := by
  intro l
  induction l with
  | nil => intro st h; simpa using h
  | cons x xs ih =>
    intro st h
    simpa using ih _ (processParagraph_progress_preserve hs x h)

/-- C1.  For every non-empty, non-whitespace-only input text, the Chunker
(`splitTextIntoChunks` with chunk size 1000) returns a non-empty sequence of
chunks, and every chunk is a non-empty string whose UTF-8 byte length is at
most 5000 (in fact every chunk has at most 801 characters of at most 4 UTF-8
bytes each). -/
theorem chunker_output_nonempty_and_within_byte_limit (text : JStr)
    (hne : text ≠ []) (hnws : ∃ c ∈ text, isJsWhitespace c = false) :
    chunkText text ≠ [] ∧
      ∀ ch ∈ chunkText text, ch ≠ [] ∧ utf8ByteLength ch ≤ 5000 := by
  unfold chunkText splitTextIntoChunks
  by_cases hlen : text.length ≤ 1000
  · rw [if_pos hlen]
    refine ⟨by simp, ?_⟩
    intro ch hch
    simp only [List.mem_singleton] at hch
    subst hch
    refine ⟨hne, ?_⟩
    have := utf8ByteLength_le_four_mul ch
    omega
  · rw [if_neg hlen]
    have hsafe : (0 : Nat) < 1000 * 4 / 5 := by norm_num
    set safe := 1000 * 4 / 5 with hsafe_def
    have hsafe800 : safe = 800 := by norm_num [hsafe_def]
    set st := (splitParas text).foldl (processParagraph safe hsafe) ⟨[], []⟩ with hst_def
    have hinv : ChunkInv safe st :=
      foldl_processParagraph_inv hsafe _ _ ⟨by simp, by simp⟩
    have hprog : ChunkProgress st := by
      obtain ⟨c, hc, hcws⟩ := hnws
      obtain ⟨p, hp, hcp⟩ := splitParas_cover hc hcws
      obtain ⟨l1, l2, hsplit⟩ := List.append_of_mem hp
      rw [hst_def, hsplit, List.foldl_append, List.foldl_cons]
      apply foldl_processParagraph_progress_preserve hsafe
      exact processParagraph_progress_establish hsafe _
        (jsTrim_ne_nil_iff_not_all_ws hcp hcws)
    have hbound : ∀ ch, ch ≠ [] → ch.length ≤ safe + 1 →
        utf8ByteLength ch ≤ 5000 := by
      intro ch _ hl
      have := utf8ByteLength_le_four_mul ch
      omega
    by_cases hemp : st.cur.isEmpty
    · rw [if_pos hemp]
      refine ⟨?_, ?_⟩
      · cases hprog with
        | inl h => exact h
        | inr h => exact absurd (by simpa using hemp) h
      · intro ch hch
        obtain ⟨h1, h2⟩ := hinv.1 ch hch
        exact ⟨h1, hbound ch h1 h2⟩
    · rw [if_neg hemp]
      refine ⟨by simp, ?_⟩
      intro ch hch
      rw [List.mem_append] at hch
      cases hch with
      | inl hch =>
        obtain ⟨h1, h2⟩ := hinv.1 ch hch
        exact ⟨h1, hbound ch h1 h2⟩
      | inr hch =>
        simp only [List.mem_singleton] at hch
        subst hch
        have h1 : st.cur ≠ [] := by simpa using hemp
        exact ⟨h1, hbound st.cur h1 hinv.2⟩

/-- Witness for C1 at the concrete input `"hi"`. -/
theorem chunker_output_nonempty_and_within_byte_limit_witness :
    (['h', 'i'] : JStr) ≠ [] ∧ (∃ c ∈ (['h', 'i'] : JStr), isJsWhitespace c = false) ∧
      (chunkText ['h', 'i'] ≠ [] ∧
        ∀ ch ∈ chunkText ['h', 'i'], ch ≠ [] ∧ utf8ByteLength ch ≤ 5000) := by
  refine ⟨by decide, ⟨'h', by decide⟩, ?_⟩
  exact chunker_output_nonempty_and_within_byte_limit ['h', 'i'] (by decide)
    ⟨'h', by decide⟩

theorem lastIdxAux_none_of_not_mem {c : Char} {s : JStr} (h : c ∉ s) :
    ∀ k, lastIdxAux c s k = none := by
  induction s with
  | nil => intro k; cases k <;> rfl
  | cons a rest ih =>
    intro k
    have hac : ¬ a = c := by
      intro hh
      exact h (by simp [hh])
    have hrest : c ∉ rest := fun hh => h (by simp [hh])
    cases k with
    | zero => simp [lastIdxAux, hac]
    | succ k => simp [lastIdxAux, ih hrest k, hac]

theorem blankMatchLen_none_of_head_ne {a : Char} {rest : JStr} (h : ¬ a = '\n') :
    blankMatchLen (a :: rest) = none := by
  simp [blankMatchLen, h]

theorem findBlank_none_of_no_newline {s : JStr} (h : '\n' ∉ s) :
    findBlank s = none := by
  induction s with
  | nil => rfl
  | cons a rest ih =>
    have ha : ¬ a = '\n' := by
      intro hh
      exact h (by simp [hh])
    have hrest : '\n' ∉ rest := fun hh => h (by simp [hh])
    unfold findBlank
    rw [blankMatchLen_none_of_head_ne ha, ih hrest]

theorem splitParas_no_newline {s : JStr} (h : '\n' ∉ s) :
    splitParas s = [s] := by
  rw [splitParas, findBlank_none_of_no_newline h]

theorem jsTrim_replicate_a (n : Nat) :
    jsTrim (List.replicate n 'a') = List.replicate n 'a' := by
  have hws : isJsWhitespace 'a' = false := by decide
  simp [jsTrim, List.dropWhile_replicate, hws, List.reverse_replicate]

theorem sentencesFrom_replicate_a (n : Nat) :
    sentencesFrom (List.replicate (n + 1) 'a') = [List.replicate (n + 1) 'a'] := by
  have hterm : isSentenceTerm 'a' = false := by decide
  have hnt : nonTermPre ('a' :: List.replicate n 'a') = 'a' :: List.replicate n 'a' := by
    simp [nonTermPre, List.takeWhile_cons, hterm, List.takeWhile_replicate]
  have haft : (afterNonTerm ('a' :: List.replicate n 'a')).length = 0 := by
    rw [afterNonTerm_length, hnt]
    simp
  rw [List.replicate_succ, sentencesFrom]
  rw [if_neg (by simp [hterm]), if_pos haft, hnt]

theorem endsWithSentenceMark_replicate_a (n : Nat) :
    endsWithSentenceMark (List.replicate (n + 1) 'a') = false := by
  rw [List.replicate_succ']
  simp [endsWithSentenceMark, List.getLast?_concat]
  decide

theorem forcedSlices_replicate_1001 (hs : 0 < (800 : Nat)) :
    forcedSlices 800 hs (List.replicate 1001 'a') =
      ([List.replicate 800 'a' ++ ['.']], List.replicate 201 'a') := by
  have hsp : splitIdx 800 (List.replicate 1001 'a') = 800 := by
    unfold splitIdx
    rw [lastIdxAux_none_of_not_mem
      (by rw [List.mem_replicate]; push_neg; intro; decide) 800]
    rfl
  have hlen : (List.replicate 1001 'a' : JStr).length = 1001 :=
    List.length_replicate 1001 'a'
  have hmin : min 800 1001 = 800 := by norm_num
  have hsub : (1001 : Nat) - 800 = 201 := by norm_num
  have htake : jsTrim ((List.replicate 1001 'a').take
      (splitIdx 800 (List.replicate 1001 'a'))) = List.replicate 800 'a' := by
    rw [hsp, List.take_replicate, hmin, jsTrim_replicate_a]
  have hdrop : jsTrim ((List.replicate 1001 'a').drop
      (splitIdx 800 (List.replicate 1001 'a'))) = List.replicate 201 'a' := by
    rw [hsp, List.drop_replicate, hsub, jsTrim_replicate_a]
  have hew : endsWithSentenceMark (List.replicate 800 'a') = false :=
    endsWithSentenceMark_replicate_a 799
  have hpart : forcedPart 800 (List.replicate 1001 'a')
      = List.replicate 800 'a' ++ ['.'] := by
    unfold forcedPart
    rw [htake, if_neg (by rw [hew]; simp)]
  rw [forcedSlices]
  rw [if_neg (by rw [hlen]; norm_num), if_neg (by rw [hlen]; norm_num)]
  rw [hpart, hdrop]
  rw [forcedSlices]
  rw [if_neg (by rw [List.length_replicate]; norm_num),
    if_pos (by rw [List.length_replicate]; norm_num)]

theorem processSentence_replicate_1001 (hs : 0 < (800 : Nat)) :
    processSentence 800 hs ⟨[], []⟩ (List.replicate 1001 'a')
      = ⟨[List.replicate 800 'a' ++ ['.']], List.replicate 201 'a'⟩ := by
  unfold processSentence
  rw [if_neg (by rw [List.nil_append, List.length_replicate]; norm_num),
    if_neg (by rw [List.length_replicate]; norm_num)]
  rw [forcedSlices_replicate_1001 hs]
  rfl

theorem processParagraph_replicate_1001 (hs : 0 < (800 : Nat)) :
    processParagraph 800 hs ⟨[], []⟩ (List.replicate 1001 'a')
      = ⟨[List.replicate 800 'a' ++ ['.']], List.replicate 201 'a'⟩ := by
  have hsent : jsMatchSentences (List.replicate 1001 'a')
      = [List.replicate 1001 'a'] := by
    unfold jsMatchSentences
    have h1001 : List.replicate 1001 'a' = List.replicate (1000 + 1) 'a' := rfl
    rw [h1001, sentencesFrom_replicate_a 1000]
    rfl
  unfold processParagraph
  rw [if_neg (by
      rw [jsTrim_replicate_a]
      intro hc
      rw [List.isEmpty_iff] at hc
      have := congrArg List.length hc
      rw [List.length_replicate] at this
      norm_num at this),
    if_neg (by rw [List.nil_append, List.length_replicate]; norm_num),
    if_neg (by rw [List.length_replicate]; norm_num)]
  rw [hsent]
  rw [if_pos (show (⟨[], []⟩ : ChunkSt).cur.isEmpty = true from rfl)]
  rw [List.foldl_cons, List.foldl_nil]
  exact processSentence_replicate_1001 hs

theorem chunkText_replicate_1001 :
    chunkText (List.replicate 1001 'a')
      = [List.replicate 800 'a' ++ ['.'], List.replicate 201 'a'] := by
  unfold chunkText splitTextIntoChunks
  rw [if_neg (by rw [List.length_replicate]; norm_num)]
  rw [splitParas_no_newline (by rw [List.mem_replicate]; push_neg; intro; decide)]
  rw [List.foldl_cons, List.foldl_nil]
  rw [processParagraph_replicate_1001 (by norm_num)]
  rfl

/-- C4 counterexample.  On the input of 1001 letters `'a'` (longer than the
chunk size 1000, containing no sentence-ending punctuation) the forced-slice
loop pushes the slice of 800 letters `'a'` followed by an appended `'.'`:
this forced slice has 801 characters, exceeding the safe size
`1000 * 4 / 5 = 800`, so forced slices are *not* bounded by the safe size. -/
theorem forced_slice_exceeds_safe_size_cex :
    (List.replicate 800 'a' ++ ['.'])
        ∈ (forcedSlices 800 (by norm_num) (List.replicate 1001 'a')).1 ∧
      (List.replicate 800 'a' ++ ['.']) ∈ chunkText (List.replicate 1001 'a') ∧
      1000 * 4 / 5 < (List.replicate 800 'a' ++ ['.']).length := by
  refine ⟨?_, ?_, ?_⟩
  · rw [forcedSlices_replicate_1001 (by norm_num)]
    exact List.mem_singleton.mpr rfl
  · rw [chunkText_replicate_1001]
    exact List.mem_cons_self _ _
  · rw [List.length_append, List.length_replicate]
    norm_num

/-- C4 (amended).  For every fragment longer than the safe size the
forced-slice loop makes progress: one iteration strictly shrinks the
remaining fragment (so the loop terminates and the slice sequence is
finite), every forced slice is non-empty, of length at most the safe size
**plus one** (a sentence-ending mark is appended when the slice lacks one,
which can exceed the safe size by exactly one character), every forced slice
ends with a sentence-ending mark, and the fragment left in the accumulator
is at most the safe size. -/
theorem forced_slice_loop_terminates_and_bounded (safe : Nat) (hs : 0 < safe)
    (r : JStr) (h : safe < r.length) :
    (jsTrim (r.drop (splitIdx safe r))).length < r.length ∧
      (∀ p ∈ (forcedSlices safe hs r).1,
        p ≠ [] ∧ p.length ≤ safe + 1 ∧ endsWithSentenceMark p = true) ∧
      (forcedSlices safe hs r).2.length ≤ safe :=
  ⟨forcedStep_lt hs h,
    (forcedSlices_spec safe hs r.length r le_rfl).1,
    (forcedSlices_spec safe hs r.length r le_rfl).2⟩

/-- Witness for the amended C4 at safe size 8 and a fragment of 11
characters. -/
theorem forced_slice_loop_terminates_and_bounded_witness :
    ((0 : Nat) < 8 ∧ 8 < (List.replicate 11 'a' : JStr).length) ∧
      ((jsTrim ((List.replicate 11 'a').drop
          (splitIdx 8 (List.replicate 11 'a')))).length
          < (List.replicate 11 'a' : JStr).length ∧
        (∀ p ∈ (forcedSlices 8 (by decide) (List.replicate 11 'a')).1,
          p ≠ [] ∧ p.length ≤ 8 + 1 ∧ endsWithSentenceMark p = true) ∧
        (forcedSlices 8 (by decide) (List.replicate 11 'a')).2.length ≤ 8) :=
  ⟨⟨by decide, by decide⟩,
    forced_slice_loop_terminates_and_bounded 8 (by decide)
      (List.replicate 11 'a') (by decide)⟩

/-- C8 counterexample.  The input `" a"` is shorter than the safe chunk size,
yet the single returned chunk is the input *verbatim* — `" a"` — and not the
trimmed input `"a"`: `splitTextIntoChunks` returns short texts untrimmed. -/
theorem chunker_short_text_not_trimmed_cex :
    ([' ', 'a'] : JStr).length < 1000 * 4 / 5 ∧
      chunkText [' ', 'a'] ≠ [jsTrim [' ', 'a']] := by
  constructor
  · decide
  · intro h
    have h2 : chunkText [' ', 'a'] = [[' ', 'a']] := by
      unfold chunkText splitTextIntoChunks
      rw [if_pos (by decide)]
    rw [h2] at h
    have h3 : jsTrim [' ', 'a'] = ['a'] := by decide
    rw [h3] at h
    simp at h

/-- C8 (amended).  For every input text shorter than the safe chunk size
(800 characters for the chunk size 1000 used by `textToAudio`), the Chunker
returns exactly one chunk equal to the input verbatim (not trimmed). -/
theorem chunker_short_text_single_verbatim_chunk (text : JStr)
    (h : text.length < 1000 * 4 / 5) :
    chunkText text = [text] := by
  unfold chunkText splitTextIntoChunks
  rw [if_pos (by omega)]

/-- Witness for the amended C8 at the concrete input `"ok"`. -/
theorem chunker_short_text_single_verbatim_chunk_witness :
    (['o', 'k'] : JStr).length < 1000 * 4 / 5 ∧ chunkText ['o', 'k'] = [['o', 'k']] :=
  ⟨by decide, chunker_short_text_single_verbatim_chunk ['o', 'k'] (by decide)⟩

/-!
The Synthesizer (`synthesizeSpeech` in src/text-to-speech.js): the byte-limit
pre-check with tail truncation, and the recursive retry on a size-limit error
from the service.
-/

/-- The truncation loop of the pre-check:
`while (new TextEncoder().encode(safeText).length > 4800)
   safeText = safeText.substring(0, safeText.length - 100);`. -/
def truncateToSafeBytes (s : JStr) : JStr :=
  if 4800 < utf8ByteLength s then truncateToSafeBytes (s.take (s.length - 100))
  else s
termination_by s.length
decreasing_by
  rename_i hgt
  have hpos : 0 < s.length := by
    rcases s with _ | ⟨c, rest⟩
    · simp [utf8ByteLength] at hgt
    · simp
  simp only [List.length_take]
  omega

/-- The pre-check of `synthesizeSpeech`: if the UTF-8 byte length exceeds the
5000-byte service limit, truncate the tail in 100-character decrements until
the byte length is at most 4800; otherwise submit the text unchanged. -/
def synthesizeSubmitText (text : JStr) : JStr :=
  if 5000 < utf8ByteLength text then truncateToSafeBytes text else text

theorem truncateToSafeBytes_le (s : JStr) :
    utf8ByteLength (truncateToSafeBytes s) ≤ 4800 := by
  have main : ∀ (n : Nat) (s : JStr), s.length ≤ n →
      utf8ByteLength (truncateToSafeBytes s) ≤ 4800 := by
    intro n
    induction n with
    | zero =>
      intro s hs
      have hnil : s = [] := by
        cases s with
        | nil => rfl
        | cons c r => simp at hs
      subst hnil
      rw [truncateToSafeBytes]
      simp [utf8ByteLength]
    | succ n ih =>
      intro s hs
      rw [truncateToSafeBytes]
      by_cases hgt : 4800 < utf8ByteLength s
      · rw [if_pos hgt]
        apply ih
        have hpos : 0 < s.length := by
          rcases s with _ | ⟨c, rest⟩
          · simp [utf8ByteLength] at hgt
          · simp
        simp only [List.length_take]
        omega
      · rw [if_neg hgt]
        omega
  exact main s.length s le_rfl

theorem truncateToSafeBytes_is_take (s : JStr) :
    ∃ k, truncateToSafeBytes s = s.take k := by
  have main : ∀ (n : Nat) (s : JStr), s.length ≤ n →
      ∃ k, truncateToSafeBytes s = s.take k := by
    intro n
    induction n with
    | zero =>
      intro s hs
      have hnil : s = [] := by
        cases s with
        | nil => rfl
        | cons c r => simp at hs
      subst hnil
      exact ⟨0, by rw [truncateToSafeBytes]; simp [utf8ByteLength]⟩
    | succ n ih =>
      intro s hs
      rw [truncateToSafeBytes]
      by_cases hgt : 4800 < utf8ByteLength s
      · rw [if_pos hgt]
        have hpos : 0 < s.length := by
          rcases s with _ | ⟨c, rest⟩
          · simp [utf8ByteLength] at hgt
          · simp
        obtain ⟨k, hk⟩ := ih (s.take (s.length - 100)) (by simp [List.length_take]; omega)
        refine ⟨min k (s.length - 100), ?_⟩
        rw [hk, List.take_take]
      · rw [if_neg hgt]
        exact ⟨s.length, by simp⟩
  exact main s.length s le_rfl

/-- C3.  For every text whose UTF-8 byte length exceeds 5000 bytes, the
pre-check of `synthesizeSpeech` trims the tail in fixed 100-character
decrements until the byte length is at most 4800 (the loop is total, hence
terminates on every input — `truncateToSafeBytes` is defined by well-founded
recursion on the strictly decreasing length), and the text actually submitted
to the service is a prefix of the input with UTF-8 byte length ≤ 4800. -/
theorem synthesizer_precheck_truncates_to_4800 (text : JStr)
    (h : 5000 < utf8ByteLength text) :
    utf8ByteLength (synthesizeSubmitText text) ≤ 4800 ∧
      ∃ k, synthesizeSubmitText text = text.take k := by
  unfold synthesizeSubmitText
  rw [if_pos h]
  exact ⟨truncateToSafeBytes_le text, truncateToSafeBytes_is_take text⟩

theorem utf8ByteLength_replicate (n : Nat) (c : Char) :
    utf8ByteLength (List.replicate n c) = n * c.utf8Size := by
  induction n with
  | zero => simp [utf8ByteLength]
  | succ n ih =>
    rw [List.replicate_succ]
    simp only [utf8ByteLength, List.map_cons, List.sum_cons] at ih ⊢
    rw [ih]
    ring

/-- Witness for C3 at 5001 letters `'a'` (5001 UTF-8 bytes): two truncation
iterations reach 4801 characters, a third reaches 4701 ≤ 4800. -/
theorem synthesizer_precheck_truncates_to_4800_witness :
    5000 < utf8ByteLength (List.replicate 5001 'a') ∧
      (utf8ByteLength (synthesizeSubmitText (List.replicate 5001 'a')) ≤ 4800 ∧
        ∃ k, synthesizeSubmitText (List.replicate 5001 'a')
          = (List.replicate 5001 'a').take k) :=
  ⟨by rw [utf8ByteLength_replicate]; decide,
    synthesizer_precheck_truncates_to_4800 (List.replicate 5001 'a')
      (by rw [utf8ByteLength_replicate]; decide)⟩

/-- A response of the external synthesis service for one submitted text:
audio bytes, the size-limit rejection
(`error.message.includes('longer than the limit of 5000 bytes')`), or any
other error. -/
inductive SynthResp where
  | okBytes (bytes : List Nat)
  | sizeLimitErr
  | otherErr
deriving DecidableEq

/-- `synthesizeSpeech` with the service modelled as an oracle `svc` from the
submitted text to its response.  The source retries a size-limit rejection by
recursing on the text cut to `Math.floor(text.length * 0.8)` characters
(`text` here is the already pre-truncated text, which was reassigned before
the call); this recursion carries **no** depth bound, so the model takes
explicit fuel and returns `none` when the recursion exceeds it — `none` for
every fuel value exhibits divergence.  `some (Except.error ())` models a
propagated (non-size) service error, the only terminal failure in the code. -/
def synthesizeSpeechFuel (svc : JStr → SynthResp) :
    Nat → JStr → Option (Except Unit (List Nat))
  | 0, _ => none
  | Nat.succ fuel, text =>
    match svc (synthesizeSubmitText text) with
    | SynthResp.okBytes bs => some (Except.ok bs)
    | SynthResp.sizeLimitErr =>
      synthesizeSpeechFuel svc fuel
        ((synthesizeSubmitText text).take
          ((synthesizeSubmitText text).length * 4 / 5))
    | SynthResp.otherErr => some (Except.error ())

/-- The oracle of a service that rejects every submission with the
size-limit error. -/
def alwaysSizeErr : JStr → SynthResp := fun _ => SynthResp.sizeLimitErr

theorem synthesizeSubmitText_nil : synthesizeSubmitText [] = [] := by
  unfold synthesizeSubmitText
  rw [if_neg (by simp [utf8ByteLength])]

theorem synthesizeSpeechFuel_nil_diverges (fuel : Nat) :
    synthesizeSpeechFuel alwaysSizeErr fuel [] = none := by
  induction fuel with
  | zero => rfl
  | succ fuel ih =>
    unfold synthesizeSpeechFuel
    rw [synthesizeSubmitText_nil]
    show synthesizeSpeechFuel alwaysSizeErr fuel (([] : JStr).take (0 * 4 / 5)) = none
    simpa using ih

/-- C2 (code behaviour at the failing input).  Against a service that keeps
rejecting with the size-limit error, the retry recursion of
`synthesizeSpeech` on the two-character text `"ab"` never reaches any
terminal outcome, for every recursion depth: the text shrinks
`"ab" → "a" → "" → "" → …` and the empty text is retried forever.  There is
no maximum retry depth and no permanent-failure path on persistent size
errors — the recursion is unbounded, not an explicit bounded loop. -/
theorem synthesize_retry_unbounded_recursion_diverges (fuel : Nat) :
    synthesizeSpeechFuel alwaysSizeErr fuel ['a', 'b'] = none := by
  match fuel with
  | 0 => rfl
  | 1 => rfl
  | 2 => rfl
  | Nat.succ (Nat.succ (Nat.succ fuel)) =>
    show synthesizeSpeechFuel alwaysSizeErr (fuel + 3) ['a', 'b'] = none
    have h1 : synthesizeSpeechFuel alwaysSizeErr (fuel + 3) ['a', 'b']
        = synthesizeSpeechFuel alwaysSizeErr (fuel + 2) ['a'] := rfl
    have h2 : synthesizeSpeechFuel alwaysSizeErr (fuel + 2) ['a']
        = synthesizeSpeechFuel alwaysSizeErr (fuel + 1) [] := rfl
    rw [h1, h2]
    exact synthesizeSpeechFuel_nil_diverges (fuel + 1)

/-!
Filenames and the cache gates (src/utils.js `createSafeFilename`,
src/text-to-speech.js `textToAudio`, src/function.js `generatePodcast`).
-/

/-- Characters replaced by the npm `sanitize-filename` dependency (filesystem
metacharacters and control characters).  The library is an external
dependency of src/utils.js, modelled here by its character-removal rule. -/
def isIllegalFsChar (c : Char) : Bool :=
  c = '/' || c = '?' || c = '<' || c = '>' || c = '\\' || c = ':' || c = '*'
    || c = '|' || c = '"' || c.toNat ≤ 0x1f
    || (0x80 ≤ c.toNat && c.toNat ≤ 0x9f)

/-- The npm `sanitize-filename` library (external dependency): removes
illegal filesystem characters, strips trailing dots and spaces, truncates to
255 characters.  Any fixed deterministic string transform serves the
determinism claims; this models the library's documented replacement rule. -/
def sanitize (s : JStr) : JStr :=
  (((s.filter (fun c => !isIllegalFsChar c)).reverse.dropWhile
      (fun c => c = '.' || c = ' ')).reverse).take 255

/-- Scanner for `replace(/\s+/g, '-')`: `inRun` records whether the previous
character was inside a whitespace run already replaced by a dash. -/
def collapseWsDashGo (inRun : Bool) : JStr → JStr
  | [] => []
  | c :: rest =>
    if isJsWhitespace c then
      if inRun then collapseWsDashGo true rest
      else '-' :: collapseWsDashGo true rest
    else c :: collapseWsDashGo false rest

/-- `title.replace(/\s+/g, '-')`: each maximal whitespace run becomes one
dash. -/
def collapseWsDash (s : JStr) : JStr :=
  collapseWsDashGo false s

/-- `createSafeFilename(title)` from src/utils.js:
`sanitize(title).replace(/\s+/g, '-').toLowerCase()` followed by
`` -${uuidv4().slice(0, 8)} ``.  The freshly drawn `uuidv4()` value is an
explicit argument `uuid` (the source draws it from the global random
generator on every invocation). -/
def createSafeFilename (title : JStr) (uuid : JStr) : JStr :=
  ((collapseWsDash (sanitize title)).map Char.toLower) ++ ['-'] ++ uuid.take 8

/-- C6 counterexample.  Two invocations of `createSafeFilename` with the same
title `"Hello"` but two different freshly drawn uuid values (`"aaaaaaaa"`
versus `"bbbbbbbb"`) produce different artifact names: the name is not a
function of the title alone. -/
theorem createSafeFilename_not_title_determined_cex :
    createSafeFilename "Hello".toList (List.replicate 8 'a')
      ≠ createSafeFilename "Hello".toList (List.replicate 8 'b') := by
  decide

/-- C6 (amended).  The artifact name is a deterministic function of the pair
(title, uuid draw): two invocations with the same title agree exactly when
their uuid draws agree on the first 8 characters.  Since `uuidv4()` draws a
fresh value per invocation, two runs with the same title produce different
names whenever those 8 characters differ. -/
theorem createSafeFilename_deterministic_in_title_and_uuid (t u1 u2 : JStr) :
    createSafeFilename t u1 = createSafeFilename t u2 ↔ u1.take 8 = u2.take 8 := by
  unfold createSafeFilename
  constructor
  · intro h
    exact List.append_cancel_left h
  · intro h
    rw [h]

/-- The public URL of an audio artifact in cloud storage:
`https://storage.googleapis.com/${bucketName}/audio/${filename}`. -/
def audioPublicUrl (bucket filename : JStr) : JStr :=
  "https://storage.googleapis.com/".toList ++ bucket ++ "/audio/".toList ++ filename

/-- `textToAudio(text, title, …)` (cloud-storage branch) with its effects
made explicit: `fileEx` is the `fileExistsInCloudStorage` oracle over the
artifact store, `uuid` is the fresh `uuidv4()` draw consumed by
`createSafeFilename`, and the result carries the returned reference together
with the number of synthesis-service calls the invocation performs (one
`synthesizeSpeech` call per chunk; zero when the existence check hits). -/
def textToAudio (fileEx : JStr → Bool) (bucket text title uuid : JStr) :
    Except Unit (JStr × Nat) :=
  if (jsTrim text).isEmpty then Except.error ()
  else if fileEx (createSafeFilename title uuid ++ ".mp3".toList) then
    Except.ok
      (audioPublicUrl bucket (createSafeFilename title uuid ++ ".mp3".toList), 0)
  else
    Except.ok
      (audioPublicUrl bucket (createSafeFilename title uuid ++ ".mp3".toList),
        (chunkText text).length)

/-- `const altUrl = articleUrl.endsWith('/') ? articleUrl.slice(0, -1)
: articleUrl + '/';` from src/function.js. -/
def altUrl (u : JStr) : JStr :=
  if u.getLast? = some '/' then u.dropLast else u ++ ['/']

/-- The processed-articles index gate of `generatePodcast`
(`if (processedArticles[articleUrl] || processedArticles[altUrl])`):
when it hits, the article branch is skipped entirely and no synthesis
happens. -/
def alreadyProcessedGate (processedArticles : JStr → Bool) (articleUrl : JStr) :
    Bool :=
  processedArticles articleUrl || processedArticles (altUrl articleUrl)

/-- The number of synthesis-service calls one `generatePodcast` invocation
makes for an article URL: zero when the processed-articles index already
holds the URL (or its trailing-slash variant); otherwise the calls made by
`textToAudio` (zero again when the artifact file already exists). -/
def generatePodcastSynthCalls (processedArticles fileEx : JStr → Bool)
    (bucket articleUrl text title uuid : JStr) : Nat :=
  if alreadyProcessedGate processedArticles articleUrl then 0
  else
    match textToAudio fileEx bucket text title uuid with
    | Except.ok (_, n) => n
    | Except.error _ => 0

/-- C5.  If the audio artifact already exists in storage under the filename
derived in this invocation, `textToAudio` performs zero synthesis calls and
returns the public URL of that existing artifact; and if the article URL (or
its trailing-slash variant) is already in the processed-articles index,
`generatePodcast` performs zero synthesis calls. -/
theorem cache_gate_skips_synthesis (processedArticles fileEx : JStr → Bool)
    (bucket articleUrl text title uuid : JStr)
    (htext : (jsTrim text).isEmpty = false) :
    (fileEx (createSafeFilename title uuid ++ ".mp3".toList) = true →
      textToAudio fileEx bucket text title uuid =
        Except.ok
          (audioPublicUrl bucket (createSafeFilename title uuid ++ ".mp3".toList),
            0)) ∧
    (alreadyProcessedGate processedArticles articleUrl = true →
      generatePodcastSynthCalls processedArticles fileEx bucket articleUrl
        text title uuid = 0) := by
  constructor
  · intro hex
    unfold textToAudio
    rw [if_neg (by rw [htext]; simp), if_pos hex]
  · intro hidx
    unfold generatePodcastSynthCalls
    rw [if_pos hidx]

/-- Witness for C5: a store that contains every name and an index that
contains every URL. -/
theorem cache_gate_skips_synthesis_witness :
    (jsTrim "hello".toList).isEmpty = false ∧
      ((fun _ => true : JStr → Bool)
          (createSafeFilename "t".toList "u".toList ++ ".mp3".toList) = true →
        textToAudio (fun _ => true) "b".toList "hello".toList "t".toList
            "u".toList =
          Except.ok
            (audioPublicUrl "b".toList
              (createSafeFilename "t".toList "u".toList ++ ".mp3".toList), 0)) ∧
      (alreadyProcessedGate (fun _ => true) "url".toList = true →
        generatePodcastSynthCalls (fun _ => true) (fun _ => true) "b".toList
          "url".toList "hello".toList "t".toList "u".toList = 0) :=
  ⟨by decide,
    (cache_gate_skips_synthesis (fun _ => true) (fun _ => true) "b".toList
      "url".toList "hello".toList "t".toList "u".toList (by decide)).1,
    (cache_gate_skips_synthesis (fun _ => true) (fun _ => true) "b".toList
      "url".toList "hello".toList "t".toList "u".toList (by decide)).2⟩

/-!
The Usage Tracker (src/index.js `trackUsage`, `getCurrentMonthStats`,
`calculateLifetimeTotal`, `calculateLifetimeArticles`).  The stats JSON
document `{ history: { "YYYY-MM": { chirpChars, totalChars, articleCount,
costEstimate } } }` is modelled as an association list from month keys to
buckets; counts are naturals and the cost estimate an exact rational (the
source uses JavaScript doubles; all values reached here are exact).  The
month key, derived in the source from `new Date()`, is an explicit
argument. -/

structure MonthBucket where
  chirpChars : Nat
  totalChars : Nat
  articleCount : Nat
  costEstimate : ℚ
deriving DecidableEq

/-- The `history` object of the stats document. -/
abbrev Ledger := List (JStr × MonthBucket)

/-- `stats.history[monthKey]` — `none` models an absent month. -/
def historyFind (st : Ledger) (k : JStr) : Option MonthBucket :=
  (st.find? (fun p => p.1 == k)).map (fun p => p.2)

/-- `stats.history[monthKey] = b` — update in place when present, insert
otherwise. -/
def historySet (st : Ledger) (k : JStr) (b : MonthBucket) : Ledger :=
  if (st.find? (fun p => p.1 == k)).isSome
    then st.map (fun p => if p.1 == k then (k, b) else p)
    else st ++ [(k, b)]

/-- The value `trackUsage`/`getCurrentMonthStats` return:
`{ ...stats.history[monthKey], lifetimeTotalChars, lifetimeArticleCount }`. -/
structure UsageView where
  chirpChars : Nat
  totalChars : Nat
  articleCount : Nat
  costEstimate : ℚ
  lifetimeTotalChars : Nat
  lifetimeArticleCount : Nat
deriving DecidableEq

/-- `calculateLifetimeTotal(stats)`: sum of `totalChars` over all month
buckets (the source skips falsy — zero — fields, which does not change the
sum). -/
def calculateLifetimeTotal (st : Ledger) : Nat :=
  st.foldl (fun acc p => if p.2.totalChars ≠ 0 then acc + p.2.totalChars else acc) 0

/-- `calculateLifetimeArticles(stats)`: sum of `articleCount` over all month
buckets. -/
def calculateLifetimeArticles (st : Ledger) : Nat :=
  st.foldl (fun acc p => if p.2.articleCount ≠ 0 then acc + p.2.articleCount else acc) 0

/-- `getCurrentMonthStats()` from src/index.js: a pure read of the current
month's bucket (defaulting to all-zero) plus the lifetime aggregates. -/
def getCurrentMonthStats (st : Ledger) (monthKey : JStr) : UsageView :=
  { chirpChars := ((historyFind st monthKey).getD ⟨0, 0, 0, 0⟩).chirpChars
    totalChars := ((historyFind st monthKey).getD ⟨0, 0, 0, 0⟩).totalChars
    articleCount := ((historyFind st monthKey).getD ⟨0, 0, 0, 0⟩).articleCount
    costEstimate := ((historyFind st monthKey).getD ⟨0, 0, 0, 0⟩).costEstimate
    lifetimeTotalChars := calculateLifetimeTotal st
    lifetimeArticleCount := calculateLifetimeArticles st }

/-- `trackUsage(charCount, voiceName)` from src/index.js, with the month key
explicit and the persisted ledger threaded through: returns the saved ledger
and the returned stats object.  `charCount === 0` returns
`getCurrentMonthStats()` without saving; otherwise the month bucket is
initialised if absent, `chirpChars`/`totalChars` grow by `charCount`,
`articleCount` by one, and
`costEstimate = max(0, chirpChars − 1_000_000) / 1_000_000 * 30` is
recomputed. -/
def trackUsage (charCount : Nat) (monthKey : JStr) (st : Ledger) :
    Ledger × UsageView :=
  if charCount = 0 then (st, getCurrentMonthStats st monthKey)
  else
    ((historySet st monthKey
        ⟨((historyFind st monthKey).getD ⟨0, 0, 0, 0⟩).chirpChars + charCount,
          ((historyFind st monthKey).getD ⟨0, 0, 0, 0⟩).totalChars + charCount,
          ((historyFind st monthKey).getD ⟨0, 0, 0, 0⟩).articleCount + 1,
          ((((historyFind st monthKey).getD ⟨0, 0, 0, 0⟩).chirpChars + charCount
              - 1000000 : Nat) : ℚ) / 1000000 * 30⟩),
      { chirpChars := ((historyFind st monthKey).getD ⟨0, 0, 0, 0⟩).chirpChars
          + charCount
        totalChars := ((historyFind st monthKey).getD ⟨0, 0, 0, 0⟩).totalChars
          + charCount
        articleCount := ((historyFind st monthKey).getD ⟨0, 0, 0, 0⟩).articleCount + 1
        costEstimate :=
          ((((historyFind st monthKey).getD ⟨0, 0, 0, 0⟩).chirpChars + charCount
            - 1000000 : Nat) : ℚ) / 1000000 * 30
        lifetimeTotalChars := calculateLifetimeTotal
          (historySet st monthKey
            ⟨((historyFind st monthKey).getD ⟨0, 0, 0, 0⟩).chirpChars + charCount,
              ((historyFind st monthKey).getD ⟨0, 0, 0, 0⟩).totalChars + charCount,
              ((historyFind st monthKey).getD ⟨0, 0, 0, 0⟩).articleCount + 1,
              ((((historyFind st monthKey).getD ⟨0, 0, 0, 0⟩).chirpChars + charCount
                  - 1000000 : Nat) : ℚ) / 1000000 * 30⟩)
        lifetimeArticleCount := calculateLifetimeArticles
          (historySet st monthKey
            ⟨((historyFind st monthKey).getD ⟨0, 0, 0, 0⟩).chirpChars + charCount,
              ((historyFind st monthKey).getD ⟨0, 0, 0, 0⟩).totalChars + charCount,
              ((historyFind st monthKey).getD ⟨0, 0, 0, 0⟩).articleCount + 1,
              ((((historyFind st monthKey).getD ⟨0, 0, 0, 0⟩).chirpChars + charCount
                  - 1000000 : Nat) : ℚ) / 1000000 * 30⟩) })

/-- `k` consecutive `trackUsage` calls in the same month, threading the
ledger. -/
def trackMany (ns : List Nat) (monthKey : JStr) (st : Ledger) : Ledger :=
  ns.foldl (fun s n => (trackUsage n monthKey s).1) st

theorem historyFind_set_same (st : Ledger) (k : JStr) (b : MonthBucket) :
    historyFind (historySet st k b) k = some b := by
  unfold historySet
  by_cases hsome : (st.find? (fun p => p.1 == k)).isSome
  · rw [if_pos hsome]
    induction st with
    | nil => simp at hsome
    | cons hd tl ih =>
      by_cases hk : hd.1 == k
      · unfold historyFind
        rw [List.map_cons, if_pos hk]
        rw [List.find?_cons_of_pos _ (by simp)]
        rfl
      · unfold historyFind
        rw [List.map_cons, if_neg hk]
        rw [List.find?_cons_of_neg _ (by simpa using hk)]
        apply ih
        rw [List.find?_cons_of_neg _ (by simpa using hk)] at hsome
        exact hsome
  · rw [if_neg hsome]
    unfold historyFind
    rw [List.find?_append]
    rw [Option.not_isSome_iff_eq_none] at hsome
    rw [hsome]
    simp

theorem calculateLifetimeTotal_eq_sum (st : Ledger) :
    calculateLifetimeTotal st = (st.map (fun p => p.2.totalChars)).sum := by
  unfold calculateLifetimeTotal
  have main : ∀ (l : Ledger) (acc : Nat),
      l.foldl (fun acc p => if p.2.totalChars ≠ 0 then acc + p.2.totalChars else acc) acc
        = acc + (l.map (fun p => p.2.totalChars)).sum := by
    intro l
    induction l with
    | nil => intro acc; simp
    | cons hd tl ih =>
      intro acc
      rw [List.foldl_cons, List.map_cons, List.sum_cons, ih]
      by_cases h : hd.2.totalChars ≠ 0
      · rw [if_pos h]; omega
      · rw [if_neg h]
        push_neg at h
        omega
  simpa using main st 0

theorem calculateLifetimeArticles_eq_sum (st : Ledger) :
    calculateLifetimeArticles st = (st.map (fun p => p.2.articleCount)).sum := by
  unfold calculateLifetimeArticles
  have main : ∀ (l : Ledger) (acc : Nat),
      l.foldl (fun acc p => if p.2.articleCount ≠ 0 then acc + p.2.articleCount else acc) acc
        = acc + (l.map (fun p => p.2.articleCount)).sum := by
    intro l
    induction l with
    | nil => intro acc; simp
    | cons hd tl ih =>
      intro acc
      rw [List.foldl_cons, List.map_cons, List.sum_cons, ih]
      by_cases h : hd.2.articleCount ≠ 0
      · rw [if_pos h]; omega
      · rw [if_neg h]
        push_neg at h
        omega
  simpa using main st 0

theorem trackUsage_pos_bucket (n : Nat) (hn : 0 < n) (mk : JStr) (st : Ledger) :
    historyFind (trackUsage n mk st).1 mk = some
      ⟨((historyFind st mk).getD ⟨0, 0, 0, 0⟩).chirpChars + n,
        ((historyFind st mk).getD ⟨0, 0, 0, 0⟩).totalChars + n,
        ((historyFind st mk).getD ⟨0, 0, 0, 0⟩).articleCount + 1,
        ((((historyFind st mk).getD ⟨0, 0, 0, 0⟩).chirpChars + n
            - 1000000 : Nat) : ℚ) / 1000000 * 30⟩ := by
  unfold trackUsage
  rw [if_neg (by omega)]
  exact historyFind_set_same st mk _

/-- C7.  `trackUsage` is additive within a month: from any ledger state,
`k ≥ 1` calls with positive character counts `n₁ … n_k` under the same month
key leave that month's bucket with both character counters (the billed
`chirpChars` — the spec's `charsUsed` — and `totalChars`) grown by `Σ nᵢ`,
the article count grown by `k`, and
`costEstimate = max(0, charsUsed − 1 000 000) / 1 000 000 × 30` recomputed
from the final character total (`Nat` subtraction is the `max(0, ·)`). -/
theorem trackUsage_additive (ns : List Nat) (mk : JStr) (st : Ledger)
    (hne : ns ≠ []) (hpos : ∀ n ∈ ns, 0 < n) :
    historyFind (trackMany ns mk st) mk = some
      ⟨((historyFind st mk).getD ⟨0, 0, 0, 0⟩).chirpChars + ns.sum,
        ((historyFind st mk).getD ⟨0, 0, 0, 0⟩).totalChars + ns.sum,
        ((historyFind st mk).getD ⟨0, 0, 0, 0⟩).articleCount + ns.length,
        ((((historyFind st mk).getD ⟨0, 0, 0, 0⟩).chirpChars + ns.sum
            - 1000000 : Nat) : ℚ) / 1000000 * 30⟩ := by
  induction ns generalizing st with
  | nil => exact absurd rfl hne
  | cons x xs ih =>
    have hx : 0 < x := hpos x (by simp)
    cases xs with
    | nil =>
      unfold trackMany
      rw [List.foldl_cons, List.foldl_nil]
      have h := trackUsage_pos_bucket x hx mk st
      rw [h]
      simp
    | cons y ys =>
      show historyFind (trackMany (y :: ys) mk ((trackUsage x mk st).1)) mk = _
      rw [ih ((trackUsage x mk st).1) (by simp)
        (fun n hn => hpos n (by simp [hn]))]
      rw [trackUsage_pos_bucket x hx mk st]
      simp only [Option.getD_some, Option.some.injEq, MonthBucket.mk.injEq]
      refine ⟨by simp [List.sum_cons]; ring, by simp [List.sum_cons]; ring,
        by simp [List.length_cons]; ring, ?_⟩
      have harith :
          ((historyFind st mk).getD ⟨0, 0, 0, 0⟩).chirpChars + x + (y :: ys).sum
            = ((historyFind st mk).getD ⟨0, 0, 0, 0⟩).chirpChars
              + (x :: y :: ys).sum := by
        simp [List.sum_cons]
        ring
      rw [harith]

/-- Witness for C7, the spec's own scenario: three `recordUsage(400 000)`
calls on an empty ledger give `charsUsed = 1 200 000`, `articleCount = 3`,
`costEstimate = (1 200 000 − 1 000 000) / 1 000 000 × 30 = 6`. -/
theorem trackUsage_additive_witness :
    (([400000, 400000, 400000] : List Nat) ≠ [] ∧
        ∀ n ∈ ([400000, 400000, 400000] : List Nat), 0 < n) ∧
      historyFind (trackMany [400000, 400000, 400000] "2025-01".toList []) "2025-01".toList
        = some ⟨1200000, 1200000, 3, 6⟩ := by
  refine ⟨⟨by decide, by decide⟩, ?_⟩
  have h := trackUsage_additive [400000, 400000, 400000] "2025-01".toList []
    (by decide) (by decide)
  rw [h]
  norm_num [historyFind]

/-- C9.  `trackUsage` with `charCount = 0` mutates nothing and returns
exactly `getCurrentMonthStats`; `getCurrentMonthStats` is a pure read (in
this model its type `Ledger → UsageView` carries no state output) whose
lifetime aggregates are the sums of the character and article counts over
all month buckets. -/
theorem trackUsage_zero_is_pure_query (st : Ledger) (mk : JStr) :
    trackUsage 0 mk st = (st, getCurrentMonthStats st mk) ∧
      (getCurrentMonthStats st mk).lifetimeTotalChars
        = (st.map (fun p => p.2.totalChars)).sum ∧
      (getCurrentMonthStats st mk).lifetimeArticleCount
        = (st.map (fun p => p.2.articleCount)).sum := by
  refine ⟨?_, ?_, ?_⟩
  · unfold trackUsage
    rw [if_pos rfl]
  · exact calculateLifetimeTotal_eq_sum st
  · exact calculateLifetimeArticles_eq_sum st

/-!
Durable JSON loading (src/utils.js `loadJsonFile`, cloud-storage
`loadFromCloudStorage`).  The filesystem read and `JSON.parse` (a JavaScript
builtin) are external collaborators: a read yields the file's raw content or
reports absence (an exception in the source), and parsing is an arbitrary
partial function returning `none` on invalid JSON (a thrown `SyntaxError`).
-/

/-- Outcome of reading a local file: absent (read threw) or raw content. -/
inductive FileRead where
  | absent
  | content (raw : JStr)
deriving DecidableEq

/-- `loadJsonFile(filePath, defaultValue)` local branch: `try { return
JSON.parse(await fs.readFile(...)) } catch { return defaultValue }` — any
read or parse failure yields the default. -/
def loadJsonFile {α : Type} (parse : JStr → Option α) (read : FileRead)
    (defaultValue : α) : α :=
  match read with
  | FileRead.absent => defaultValue
  | FileRead.content raw =>
    match parse raw with
    | some v => v
    | none => defaultValue

/-- Outcome of a cloud-storage read: a storage error (any thrown error), a
negative existence check, or downloaded raw content. -/
inductive CloudRead where
  | errored
  | absent
  | content (raw : JStr)
deriving DecidableEq

/-- `loadFromCloudStorage(filePath, defaultValue)`: absence
(`!exists`) returns the default; `JSON.parse(content.toString())` failures
and every other storage error are caught and also return the default. -/
def loadFromCloudStorage {α : Type} (parse : JStr → Option α) (read : CloudRead)
    (defaultValue : α) : α :=
  match read with
  | CloudRead.errored => defaultValue
  | CloudRead.absent => defaultValue
  | CloudRead.content raw =>
    match parse raw with
    | some v => v
    | none => defaultValue

/-- C10.  Loading a durable JSON document is total: both loaders are total
functions, and whenever the file is absent, the storage read fails, or the
content fails to parse as JSON, the provided default value is returned —
a corrupt or missing index/ledger never aborts an invocation at load time. -/
theorem load_json_total_with_default {α : Type} (parse : JStr → Option α)
    (defaultValue : α) (raw : JStr) (hbad : parse raw = none) :
    loadJsonFile parse FileRead.absent defaultValue = defaultValue ∧
      loadJsonFile parse (FileRead.content raw) defaultValue = defaultValue ∧
      loadFromCloudStorage parse CloudRead.absent defaultValue = defaultValue ∧
      loadFromCloudStorage parse CloudRead.errored defaultValue = defaultValue ∧
      loadFromCloudStorage parse (CloudRead.content raw) defaultValue
        = defaultValue := by
  refine ⟨rfl, ?_, rfl, rfl, ?_⟩
  · show (match parse raw with | some v => v | none => defaultValue) = defaultValue
    rw [hbad]
  · show (match parse raw with | some v => v | none => defaultValue) = defaultValue
    rw [hbad]

/-- Witness for C10 with a parser that rejects the content `"{"` (modelled
as every-input-invalid) and the default `0`. -/
theorem load_json_total_with_default_witness :
    ((fun _ => none : JStr → Option Nat) ['x'] = none) ∧
      (loadJsonFile (fun _ => none) FileRead.absent 0 = 0 ∧
        loadJsonFile (fun _ => none) (FileRead.content ['x']) 0 = 0 ∧
        loadFromCloudStorage (fun _ => none) CloudRead.absent 0 = 0 ∧
        loadFromCloudStorage (fun _ => none) CloudRead.errored 0 = 0 ∧
        loadFromCloudStorage (fun _ => none) (CloudRead.content ['x']) 0 = 0) :=
  ⟨rfl, load_json_total_with_default (fun _ => none) 0 ['x'] rfl⟩
